import Mathlib

/-!
Verification development for the github-stats aggregation engine
(`github_stats.py`).  The Python source is shallowly embedded: each
class-level operation becomes a pure Lean function over explicit state, the
network is a parameter (a function from request to response), and the cache
file is an explicit association-list store.
-/

namespace GHStats

/-! ### Association-list helpers (Python `dict` lookup / assignment) -/

/-- Lookup in an association list, first match wins (Python `d.get(k)`). -/
def getKV {α : Type} : List (String × α) → String → Option α
  | [], _ => none
  | (k, v) :: rest, key => if k = key then some v else getKV rest key

/-- Upsert into an association list (Python `d[k] = v`): replaces the first
binding in place, otherwise appends at the end (dict insertion order). -/
def setKV {α : Type} : List (String × α) → String → α → List (String × α)
  | [], key, val => [(key, val)]
  | (k, v) :: rest, key, val =>
    if k = key then (k, val) :: rest else (k, v) :: setKV rest key val

theorem getKV_setKV_same {α : Type} (l : List (String × α)) (k : String) (v : α) :
    getKV (setKV l k v) k = some v := by
  induction l with
  | nil => simp [getKV, setKV]
  | cons hd tl ih =>
    obtain ⟨k0, v0⟩ := hd
    by_cases h : k0 = k
    · simp [getKV, setKV, h]
    · simp [getKV, setKV, h, ih]

theorem getKV_setKV_other {α : Type} (l : List (String × α)) (k k2 : String) (v : α)
    (hne : k ≠ k2) : getKV (setKV l k v) k2 = getKV l k2 := by
  induction l with
  | nil => simp [getKV, setKV, hne]
  | cons hd tl ih =>
    obtain ⟨k0, v0⟩ := hd
    by_cases h : k0 = k
    · subst h
      simp [getKV, setKV, hne]
    · simp only [setKV, if_neg h, getKV]
      by_cases h2 : k0 = k2
      · simp [h2]
      · simp [h2, ih]

/-! ### Repository Collector (`Stats.get_stats`, lines 205-282)

A GraphQL repository node carries `nameWithOwner`, `stargazers.totalCount`,
`forkCount` and up to ten language edges `{size, node {name, color}}`. -/

structure LangEdge where
  name : String
  size : Nat
  color : Option String
deriving DecidableEq, Repr

structure RepoNode where
  nameWithOwner : String
  stargazers : Nat
  forkCount : Nat
  languages : List LangEdge
deriving DecidableEq, Repr

/-- One page of the combined dual-list GraphQL response: the viewer fields and
the node lists of the `repositories` / `repositoriesContributedTo` pages. -/
structure Page where
  viewerName : Option String
  viewerLogin : Option String
  ownedNodes : List RepoNode
  contribNodes : List RepoNode
deriving DecidableEq, Repr

/-- `Stats.__init__` configuration: `exclude_repos`, `exclude_langs`,
`consider_forked_repos`. -/
structure Config where
  excludeRepos : List String
  excludeLangs : List String
  considerForked : Bool
deriving DecidableEq, Repr

/-- One entry of `self._languages`: cumulative `size`, `occurrences`, `color`,
and the `prop` key that the post-loop percentage step adds (absent before). -/
structure LangAgg where
  size : Nat
  occurrences : Nat
  color : Option String
  prop : Option ℚ
deriving DecidableEq, Repr

/-- The collector's mutable fields of `Stats`:
`_name`, `_repos`, `_ignored_repos`, `_stargazers`, `_forks`, `_languages`,
`_repo_language_data`.  Sets are lists (membership is all that is used),
dicts are insertion-ordered association lists. -/
structure CState where
  name : Option String
  repos : List String
  ignored : List String
  stargazers : Nat
  forks : Nat
  languages : List (String × LangAgg)
  repoLangData : List (String × List (String × ℚ))
deriving DecidableEq, Repr

def initCState : CState :=
  { name := none, repos := [], ignored := [], stargazers := 0, forks := 0,
    languages := [], repoLangData := [] }

/-- Lines 246-254: build `repo_langs` (a dict, so duplicate language names
overwrite) and `total_size` (which accumulates every kept edge). -/
def buildRepoLangs (cfg : Config) (edges : List LangEdge) :
    List (String × Nat) × Nat :=
  edges.foldl
    (fun acc e =>
      if e.name ∈ cfg.excludeLangs then acc
      else (setKV acc.1 e.name e.size, acc.2 + e.size))
    ([], 0)

/-- Lines 263-271: merge one language edge into `self._languages`. -/
def bumpLang (e : LangEdge) : List (String × LangAgg) → List (String × LangAgg)
  | [] => [(e.name, { size := e.size, occurrences := 1, color := e.color, prop := none })]
  | (k, v) :: rest =>
    if k = e.name then
      (k, { v with size := v.size + e.size, occurrences := v.occurrences + 1 }) :: rest
    else (k, v) :: bumpLang e rest

/-- Lines 259-271: one iteration of the second per-repo language loop,
skipping configured excluded languages. -/
def addLangEdge (cfg : Config) (ls : List (String × LangAgg)) (e : LangEdge) :
    List (String × LangAgg) :=
  if e.name ∈ cfg.excludeLangs then ls else bumpLang e ls

/-- Lines 238-271: admit one repository node into the running aggregates.
Already-seen or configuration-excluded identities are skipped entirely. -/
def processRepo (cfg : Config) (s : CState) (r : RepoNode) : CState :=
  if r.nameWithOwner ∈ s.repos ∨ r.nameWithOwner ∈ cfg.excludeRepos then s
  else
    let rl := buildRepoLangs cfg r.languages
    { name := s.name
      repos := r.nameWithOwner :: s.repos
      ignored := s.ignored
      stargazers := s.stargazers + r.stargazers
      forks := s.forks + r.forkCount
      languages := r.languages.foldl (addLangEdge cfg) s.languages
      repoLangData :=
        if 0 < rl.2 then
          setKV s.repoLangData r.nameWithOwner
            (rl.1.map (fun p => (p.1, (p.2 : ℚ) / (rl.2 : ℚ))))
        else s.repoLangData }

/-- Lines 232-236: with fork-inclusion disabled, a contributed-to node is only
recorded in `_ignored_repos` (unless excluded or already recorded). -/
def processContrib (cfg : Config) (s : CState) (r : RepoNode) : CState :=
  if r.nameWithOwner ∈ s.ignored ∨ r.nameWithOwner ∈ cfg.excludeRepos then s
  else { s with ignored := r.nameWithOwner :: s.ignored }

/-- Lines 221-223: `_name` from `viewer.name`, falling back to
`viewer.login` with default `"No Name"`. -/
def pageName (p : Page) : String :=
  match p.viewerName with
  | some n => n
  | none => p.viewerLogin.getD "No Name"

/-- Lines 216-271: one iteration of the pagination loop.  With
`consider_forked_repos` the contributed-to nodes are appended to the owned
nodes and fed through the same admission loop; otherwise they are folded into
the ignored set first (the source runs that loop before the admission loop). -/
def processPage (cfg : Config) (s : CState) (p : Page) : CState :=
  let s1 := { s with name := some (pageName p) }
  if cfg.considerForked then
    (p.ownedNodes ++ p.contribNodes).foldl (processRepo cfg) s1
  else
    p.ownedNodes.foldl (processRepo cfg)
      (p.contribNodes.foldl (processContrib cfg) s1)

/-- The whole pagination loop of `get_stats`, fed with the sequence of pages
the GraphQL endpoint returns (the loop body runs once per combined response). -/
def collectPages (cfg : Config) (pages : List Page) : CState :=
  pages.foldl (processPage cfg) initCState

/-- Line 280: `langs_total`. -/
def langsTotal (s : CState) : Nat :=
  (s.languages.map (fun kv => kv.2.size)).sum

/-- Lines 205-282: full `get_stats`, including the post-loop percentage step.
`none` models the uncaught `ZeroDivisionError` that Python raises at line 282
when `langs_total == 0` and at least one language was admitted. -/
def getStatsRun (cfg : Config) (pages : List Page) : Option CState :=
  let s := collectPages cfg pages
  match s.languages with
  | [] => some s
  | _ :: _ =>
    if langsTotal s = 0 then none
    else some { s with
      languages := s.languages.map (fun kv =>
        (kv.1, { kv.2 with
          prop := some ((100 : ℚ) * ((kv.2.size : ℚ) / (langsTotal s : ℚ))) })) }

/-- Line 334/338: `self._repos | self._ignored_repos` (a set union). -/
def allReposList (s : CState) : List String :=
  (s.repos ++ s.ignored).dedup

/-! ### Lines-Changed Engine with Durable Cache (`Stats.lines_changed`,
lines 353-423) -/

/-- One element of the contributor-stats list.  `malformed` stands for an
element that is not a dict, or whose `author` field is not a dict — both are
skipped by lines 376-377.  Week entries carry the `a` and `d` fields. -/
inductive AuthorEntry : Type
  | malformed : AuthorEntry
  | entry (login : String) (weeks : List (Nat × Nat)) : AuthorEntry
deriving DecidableEq, Repr

/-- Result of `query_rest(f"/repos/{repo}/stats/contributors")` as the engine
discriminates it at line 374: a list, or anything that is not a list (an error
dict, the empty dict after 202 exhaustion, ...). -/
inductive ContribResult : Type
  | notList : ContribResult
  | listRes (entries : List AuthorEntry) : ContribResult
deriving DecidableEq, Repr

def weeksAdds (ws : List (Nat × Nat)) : Nat := (ws.map Prod.fst).sum

def weeksDels (ws : List (Nat × Nat)) : Nat := (ws.map Prod.snd).sum

/-- Lines 375-383: `repo_additions` — sum the week `a` fields of every author
entry whose login equals the target username. -/
def authorAdds (username : String) (es : List AuthorEntry) : Nat :=
  es.foldl
    (fun acc e =>
      match e with
      | .malformed => acc
      | .entry login ws => if login = username then acc + weeksAdds ws else acc) 0

/-- Lines 375-383: `repo_deletions`. -/
def authorDels (username : String) (es : List AuthorEntry) : Nat :=
  es.foldl
    (fun acc e =>
      match e with
      | .malformed => acc
      | .entry login ws => if login = username then acc + weeksDels ws else acc) 0

/-- Python `int(...)` on a rational value: truncation toward zero
(the reduced denominator is positive, so integer T-division of the numerator
by the denominator is exact truncation). -/
def pyInt (x : ℚ) : ℤ := Int.tdiv x.num (x.den : ℤ)

/-- One persisted cache record (`contribution_cache.json` value). -/
structure CacheEntry where
  additions : Nat
  deletions : Nat
  last_updated : String
  languages : List (String × ℤ × ℤ)
deriving DecidableEq, Repr

/-- Inputs of one `lines_changed` run: the target username, the iteration
order of `all_repos`, the contributor-stats endpoint, the collector's
`_repo_language_data`, the loaded cache mapping and the current UTC
timestamp string (`datetime.utcnow().isoformat() + "Z"`). -/
structure LCInput where
  username : String
  repos : List String
  fetch : String → ContribResult
  repoLangData : List (String × List (String × ℚ))
  cache0 : List (String × CacheEntry)
  now : String

/-- Lines 389-400: the per-language breakdown written on success. -/
def langContribs (inp : LCInput) (repo : String) (ra rd : Nat) :
    List (String × ℤ × ℤ) :=
  match getKV inp.repoLangData repo with
  | some props => props.map (fun p => (p.1, pyInt ((ra : ℚ) * p.2), pyInt ((rd : ℚ) * p.2)))
  | none => [("Unknown", (ra : ℤ), (rd : ℤ))]

/-- Lines 402-407: the fresh cache entry written on a successful fetch. -/
def newEntry (inp : LCInput) (repo : String) (ra rd : Nat) : CacheEntry :=
  { additions := ra, deletions := rd, last_updated := inp.now,
    languages := langContribs inp repo ra rd }

/-- The engine's running state: grand totals and `updated_cache`. -/
structure LCState where
  additions : Nat
  deletions : Nat
  updated : List (String × CacheEntry)
deriving DecidableEq, Repr

/-- Lines 369-417: one iteration of the per-repository loop.  On a list
response the totals grow by the author's sums and a fresh entry overwrites
`updated_cache[repo]`; otherwise the loaded cache (`cache["repositories"]`,
not `updated_cache`) is consulted: a hit is copied forward and added to the
totals, a miss leaves everything untouched. -/
def lcStep (inp : LCInput) (s : LCState) (repo : String) : LCState :=
  match inp.fetch repo with
  | .listRes es =>
    let ra := authorAdds inp.username es
    let rd := authorDels inp.username es
    { additions := s.additions + ra
      deletions := s.deletions + rd
      updated := setKV s.updated repo (newEntry inp repo ra rd) }
  | .notList =>
    match getKV inp.cache0 repo with
    | some e =>
      { additions := s.additions + e.additions
        deletions := s.deletions + e.deletions
        updated := setKV s.updated repo e }
    | none => s

/-- Lines 361-420: the whole run.  `updated_cache` starts as a copy of the
loaded mapping (line 364) and the final state carries the totals returned at
line 423 plus the mapping written back to disk at lines 419-420. -/
def linesChangedRun (inp : LCInput) : LCState :=
  inp.repos.foldl (lcStep inp) { additions := 0, deletions := 0, updated := inp.cache0 }

/-- The additions one repository contributes to the grand total. -/
def perRepoAdd (inp : LCInput) (repo : String) : Nat :=
  match inp.fetch repo with
  | .listRes es => authorAdds inp.username es
  | .notList =>
    match getKV inp.cache0 repo with
    | some e => e.additions
    | none => 0

/-- The deletions one repository contributes to the grand total. -/
def perRepoDel (inp : LCInput) (repo : String) : Nat :=
  match inp.fetch repo with
  | .listRes es => authorDels inp.username es
  | .notList =>
    match getKV inp.cache0 repo with
    | some e => e.deletions
    | none => 0

/-- What the run leaves under a key that occurs in `all_repos`. -/
def writeVal (inp : LCInput) (repo : String) : Option CacheEntry :=
  match inp.fetch repo with
  | .listRes es =>
    some (newEntry inp repo (authorAdds inp.username es) (authorDels inp.username es))
  | .notList => getKV inp.cache0 repo

/-! ### Request Gateway retry loop (`Queries.query_rest`, lines 42-74) -/

/-- What one iteration of the retry loop observes.  The async transport can
answer 202 (sleep 2s, retry), a JSON body (`None` bodies fall through to the
next iteration), or raise — in which case the sync fallback answers 202
(sleep, retry), 200 (return), or anything else (falls off the `except` block
into the next iteration). -/
inductive RestAttempt (α : Type) : Type
  | http202 : RestAttempt α
  | jsonOk (v : α) : RestAttempt α
  | jsonNull : RestAttempt α
  | exc202 : RestAttempt α
  | exc200 (v : α) : RestAttempt α
  | excOther : RestAttempt α
deriving DecidableEq, Repr

/-- Outcome of `query_rest`: the returned value (`none` models the
`return dict()` give-up at line 74), the number of loop iterations performed,
and the number of 2-second sleeps taken. -/
structure RestOutcome (α : Type) where
  result : Option α
  attempts : Nat
  sleeps : Nat
deriving DecidableEq, Repr

/-- The `for _ in range(60)` loop, with `fuel` iterations left, `i` attempts
already made and `sleeps` sleeps already taken. -/
def queryRestAux {α : Type} (resp : Nat → RestAttempt α) :
    Nat → Nat → Nat → RestOutcome α
  | 0, i, sleeps => { result := none, attempts := i, sleeps := sleeps }
  | fuel + 1, i, sleeps =>
    match resp i with
    | .http202 => queryRestAux resp fuel (i + 1) (sleeps + 1)
    | .jsonOk v => { result := some v, attempts := i + 1, sleeps := sleeps }
    | .jsonNull => queryRestAux resp fuel (i + 1) sleeps
    | .exc202 => queryRestAux resp fuel (i + 1) (sleeps + 1)
    | .exc200 v => { result := some v, attempts := i + 1, sleeps := sleeps }
    | .excOther => queryRestAux resp fuel (i + 1) sleeps

/-- `Queries.query_rest`: at most 60 attempts, then the empty-dict give-up. -/
def query_rest {α : Type} (resp : Nat → RestAttempt α) : RestOutcome α :=
  queryRestAux resp 60 0 0

/-! ### Cache store load (`Stats._load_cache`, lines 178-183) -/

/-- The persisted document: top-level key `repositories`. -/
structure CacheStore where
  repositories : List (String × CacheEntry)
deriving DecidableEq, Repr

def emptyStore : CacheStore := { repositories := [] }

/-- `_load_cache`: a missing file (`FileNotFoundError`) or a body that fails
to parse (`json.JSONDecodeError`, modelled by the abstract parser returning
`none`) yields the empty store; otherwise the parsed document is returned. -/
def loadCache (file : Option String) (parse : String → Option CacheStore) :
    CacheStore :=
  match file with
  | none => emptyStore
  | some s => (parse s).getD emptyStore

/-! ### Views Aggregator (`Stats.views`, lines 425-435) -/

/-- Sum of the `count` fields of the time buckets returned for one repo;
`traffic r` is the list of counts (an error/empty dict yields `[]`). -/
def viewsTotal (repos : List String) (traffic : String → List Nat) : Nat :=
  repos.foldl (fun acc r => acc + (traffic r).sum) 0

/-! ### Memoized accessors (`Stats.name` ... `Stats.lines_changed`,
lines 284-338 and 353-423)

The `Stats` instance fields that the accessors guard, plus a counter of how
many times `get_stats` (the full fetch) has run.  `none` is Python `None`. -/

structure MState where
  nameF : Option String
  stargazersF : Option Nat
  forksF : Option Nat
  languagesF : Option (List (String × LangAgg))
  reposF : Option (List String)
  ignoredF : Option (List String)
  linesChangedF : Option (Nat × Nat)
  fetchCount : Nat
deriving DecidableEq, Repr

/-- The freshly constructed `Stats` object: every field `None`. -/
def initM : MState :=
  { nameF := none, stargazersF := none, forksF := none, languagesF := none,
    reposF := none, ignoredF := none, linesChangedF := none, fetchCount := 0 }

/-- The field assignments `get_stats` performs (it never touches
`_lines_changed`), plus one more recorded fetch. -/
def snapshotOf (c : CState) (m : MState) : MState :=
  { nameF := c.name, stargazersF := some c.stargazers, forksF := some c.forks,
    languagesF := some c.languages, reposF := some c.repos,
    ignoredF := some c.ignored, linesChangedF := m.linesChangedF,
    fetchCount := m.fetchCount + 1 }

/-- Running `await self.get_stats()` on the instance; `none` propagates the
`ZeroDivisionError` of the percentage step. -/
def getStatsM (cfg : Config) (pages : List Page) (m : MState) : Option MState :=
  (getStatsRun cfg pages).map (fun c => snapshotOf c m)

/-- Lines 284-290. -/
def nameAcc (cfg : Config) (pages : List Page) (m : MState) : Option MState :=
  if m.nameF.isSome then some m else getStatsM cfg pages m

/-- Lines 292-298. -/
def stargazersAcc (cfg : Config) (pages : List Page) (m : MState) : Option MState :=
  if m.stargazersF.isSome then some m else getStatsM cfg pages m

/-- Lines 300-306. -/
def forksAcc (cfg : Config) (pages : List Page) (m : MState) : Option MState :=
  if m.forksF.isSome then some m else getStatsM cfg pages m

/-- Lines 308-314. -/
def languagesAcc (cfg : Config) (pages : List Page) (m : MState) : Option MState :=
  if m.languagesF.isSome then some m else getStatsM cfg pages m

/-- Lines 323-329. -/
def reposAcc (cfg : Config) (pages : List Page) (m : MState) : Option MState :=
  if m.reposF.isSome then some m else getStatsM cfg pages m

/-- Lines 331-338: `all_repos` fetches only when `_repos` or
`_ignored_repos` is `None`; it stores nothing new. -/
def allReposAcc (cfg : Config) (pages : List Page) (m : MState) : Option MState :=
  if m.reposF.isSome ∧ m.ignoredF.isSome then some m else getStatsM cfg pages m

/-- The environment of one `lines_changed` run that does not come from the
collector: target username, contributor-stats endpoint, loaded cache, clock. -/
structure LCEnv where
  username : String
  fetch : String → ContribResult
  cache0 : List (String × CacheEntry)
  now : String

/-- Assemble the `lines_changed` inputs from a collector state. -/
def mkLCInput (lc : LCEnv) (c : CState) : LCInput :=
  { username := lc.username, repos := allReposList c, fetch := lc.fetch,
    repoLangData := c.repoLangData, cache0 := lc.cache0, now := lc.now }

/-- Lines 353-423: the `lines_changed` accessor.  After the memoization
guard it calls `get_stats` unconditionally (line 366), then iterates
`all_repos` and stores the totals. -/
def linesChangedAcc (cfg : Config) (pages : List Page) (lc : LCEnv)
    (m : MState) : Option MState :=
  if m.linesChangedF.isSome then some m
  else
    match getStatsRun cfg pages with
    | none => none
    | some c =>
      let r := linesChangedRun (mkLCInput lc c)
      some { snapshotOf c m with linesChangedF := some (r.additions, r.deletions) }

/-! ### Lemmas about the lines-changed run -/

theorem lcStep_additions (inp : LCInput) (s : LCState) (r : String) :
    (lcStep inp s r).additions = s.additions + perRepoAdd inp r := by
  unfold lcStep perRepoAdd
  cases hf : inp.fetch r with
  | listRes es => simp
  | notList => cases hc : getKV inp.cache0 r <;> simp

theorem lcStep_deletions (inp : LCInput) (s : LCState) (r : String) :
    (lcStep inp s r).deletions = s.deletions + perRepoDel inp r := by
  unfold lcStep perRepoDel
  cases hf : inp.fetch r with
  | listRes es => simp
  | notList => cases hc : getKV inp.cache0 r <;> simp

theorem lcFold_additions (inp : LCInput) :
    ∀ (rs : List String) (s : LCState),
      (rs.foldl (lcStep inp) s).additions = s.additions + (rs.map (perRepoAdd inp)).sum := by
  intro rs
  induction rs with
  | nil => intro s; simp
  | cons r rs ih =>
    intro s
    simp only [List.foldl_cons, List.map_cons, List.sum_cons, ih, lcStep_additions]
    omega

theorem lcFold_deletions (inp : LCInput) :
    ∀ (rs : List String) (s : LCState),
      (rs.foldl (lcStep inp) s).deletions = s.deletions + (rs.map (perRepoDel inp)).sum := by
  intro rs
  induction rs with
  | nil => intro s; simp
  | cons r rs ih =>
    intro s
    simp only [List.foldl_cons, List.map_cons, List.sum_cons, ih, lcStep_deletions]
    omega

theorem linesChangedRun_additions (inp : LCInput) :
    (linesChangedRun inp).additions = (inp.repos.map (perRepoAdd inp)).sum := by
  unfold linesChangedRun
  rw [lcFold_additions]
  simp

theorem linesChangedRun_deletions (inp : LCInput) :
    (linesChangedRun inp).deletions = (inp.repos.map (perRepoDel inp)).sum := by
  unfold linesChangedRun
  rw [lcFold_deletions]
  simp

theorem lcStep_updated_other (inp : LCInput) (s : LCState) (r x : String)
    (h : x ≠ r) : getKV (lcStep inp s r).updated x = getKV s.updated x := by
  unfold lcStep
  cases hf : inp.fetch r with
  | listRes es => simpa using getKV_setKV_other s.updated r x _ (fun he => h he.symm)
  | notList =>
    cases hc : getKV inp.cache0 r with
    | some e => simpa using getKV_setKV_other s.updated r x _ (fun he => h he.symm)
    | none => rfl

theorem lcFold_updated_not_mem (inp : LCInput) :
    ∀ (rs : List String) (s : LCState) (x : String), x ∉ rs →
      getKV ((rs.foldl (lcStep inp) s)).updated x = getKV s.updated x := by
  intro rs
  induction rs with
  | nil => intro s x _; rfl
  | cons r rs ih =>
    intro s x hx
    have hne : x ≠ r := fun he => hx (he ▸ List.mem_cons_self r rs)
    have htl : x ∉ rs := fun hm => hx (List.mem_cons_of_mem r hm)
    simp only [List.foldl_cons]
    rw [ih _ x htl, lcStep_updated_other inp s r x hne]

theorem lcFold_updated_dead (inp : LCInput) (x : String)
    (hf : inp.fetch x = .notList) (hc : getKV inp.cache0 x = none) :
    ∀ (rs : List String) (s : LCState),
      getKV ((rs.foldl (lcStep inp) s)).updated x = getKV s.updated x := by
  intro rs
  induction rs with
  | nil => intro s; rfl
  | cons r rs ih =>
    intro s
    simp only [List.foldl_cons]
    rw [ih]
    by_cases he : x = r
    · subst he
      simp [lcStep, hf, hc]
    · exact lcStep_updated_other inp s r x he

theorem lcFold_updated_mem (inp : LCInput) (x : String)
    (hw : ∀ s : LCState, getKV (lcStep inp s x).updated x = writeVal inp x) :
    ∀ (rs : List String) (s : LCState), x ∈ rs →
      getKV ((rs.foldl (lcStep inp) s)).updated x = writeVal inp x := by
  intro rs
  induction rs with
  | nil => intro s h; cases h
  | cons r rs ih =>
    intro s hx
    simp only [List.foldl_cons]
    by_cases htl : x ∈ rs
    · exact ih _ htl
    · have hxr : x = r := by
        rcases List.mem_cons.mp hx with h | h
        · exact h
        · exact absurd h htl
      subst hxr
      rw [lcFold_updated_not_mem inp rs _ x htl, hw]

/-- The cache mapping the run writes back, pointwise: repositories of the
current run get `writeVal`, all other keys keep their loaded value. -/
theorem linesChangedRun_updated (inp : LCInput) (x : String) :
    getKV (linesChangedRun inp).updated x =
      if x ∈ inp.repos then writeVal inp x else getKV inp.cache0 x := by
  unfold linesChangedRun
  by_cases hmem : x ∈ inp.repos
  · rw [if_pos hmem]
    cases hf : inp.fetch x with
    | listRes es =>
      refine lcFold_updated_mem inp x (fun s => ?_) inp.repos _ hmem
      simp [lcStep, writeVal, hf, getKV_setKV_same]
    | notList =>
      cases hc : getKV inp.cache0 x with
      | some e =>
        refine lcFold_updated_mem inp x (fun s => ?_) inp.repos _ hmem
        simp [lcStep, writeVal, hf, hc, getKV_setKV_same]
      | none =>
        rw [lcFold_updated_dead inp x hf hc]
        simp [writeVal, hf, hc]
  · rw [if_neg hmem, lcFold_updated_not_mem inp inp.repos _ x hmem]

/-- Splitting the grand total at one member of the iteration list. -/
theorem map_sum_split (f : String → Nat) (l : List String) (x : String)
    (hmem : x ∈ l) : (l.map f).sum = f x + ((l.erase x).map f).sum := by
  have hperm : l.Perm (x :: l.erase x) := List.perm_cons_erase hmem
  have := (hperm.map f).sum_eq
  simpa using this

/-- C1: when the live contributor-stats fetch for a repository is not a list,
the engine falls back to the loaded cache: the written cache holds the loaded
entry unchanged (identical lookup), a prior entry's additions/deletions are
added to the grand totals exactly once, and with no prior entry the
repository contributes 0 to both totals and gains no cache entry. -/
theorem C1_cache_fallback (inp : LCInput) (repo : String)
    (hmem : repo ∈ inp.repos)
    (hf : inp.fetch repo = ContribResult.notList) :
    getKV (linesChangedRun inp).updated repo = getKV inp.cache0 repo ∧
    (∀ e : CacheEntry, getKV inp.cache0 repo = some e →
      (linesChangedRun inp).additions
          = e.additions + ((inp.repos.erase repo).map (perRepoAdd inp)).sum ∧
      (linesChangedRun inp).deletions
          = e.deletions + ((inp.repos.erase repo).map (perRepoDel inp)).sum) ∧
    (getKV inp.cache0 repo = none →
      (linesChangedRun inp).additions = ((inp.repos.erase repo).map (perRepoAdd inp)).sum ∧
      (linesChangedRun inp).deletions = ((inp.repos.erase repo).map (perRepoDel inp)).sum ∧
      getKV (linesChangedRun inp).updated repo = none) := by
  refine ⟨?_, ?_, ?_⟩
  · rw [linesChangedRun_updated, if_pos hmem]
    simp [writeVal, hf]
  · intro e he
    have hadd : perRepoAdd inp repo = e.additions := by simp [perRepoAdd, hf, he]
    have hdel : perRepoDel inp repo = e.deletions := by simp [perRepoDel, hf, he]
    constructor
    · rw [linesChangedRun_additions, map_sum_split _ _ _ hmem, hadd]
    · rw [linesChangedRun_deletions, map_sum_split _ _ _ hmem, hdel]
  · intro he
    have hadd : perRepoAdd inp repo = 0 := by simp [perRepoAdd, hf, he]
    have hdel : perRepoDel inp repo = 0 := by simp [perRepoDel, hf, he]
    refine ⟨?_, ?_, ?_⟩
    · rw [linesChangedRun_additions, map_sum_split _ _ _ hmem, hadd]
      exact Nat.zero_add _
    · rw [linesChangedRun_deletions, map_sum_split _ _ _ hmem, hdel]
      exact Nat.zero_add _
    · rw [linesChangedRun_updated, if_pos hmem]
      simp [writeVal, hf, he]

def entryC1 : CacheEntry :=
  { additions := 10, deletions := 2, last_updated := "2024-01-01T00:00:00Z",
    languages := [("Python", 7, 1)] }

def inpC1 : LCInput :=
  { username := "u"
    repos := ["repo/a", "repo/b"]
    fetch := fun q =>
      if q = "repo/b" then ContribResult.listRes [AuthorEntry.entry "u" [(5, 1), (3, 0)]]
      else ContribResult.notList
    repoLangData := []
    cache0 := [("repo/a", entryC1)]
    now := "2024-06-01T00:00:00Z" }

theorem C1_cache_fallback_witness :
    getKV (linesChangedRun inpC1).updated "repo/a" = getKV inpC1.cache0 "repo/a" ∧
    (linesChangedRun inpC1).additions
        = entryC1.additions + ((inpC1.repos.erase "repo/a").map (perRepoAdd inpC1)).sum ∧
    (linesChangedRun inpC1).additions = 18 :=
  ⟨(C1_cache_fallback inpC1 "repo/a" (by decide) (by decide)).1,
   ((C1_cache_fallback inpC1 "repo/a" (by decide) (by decide)).2.1 entryC1 (by decide)).1,
   by decide⟩

/-- C2: when the live fetch yields a list, the target author's week sums are
added to the grand totals and the rewritten cache entry holds exactly those
sums, the fresh timestamp of this run, and the proportional per-language
breakdown (or a single Unknown entry) — independent of any old cached value. -/
theorem C2_cache_overwrite (inp : LCInput) (repo : String) (es : List AuthorEntry)
    (hmem : repo ∈ inp.repos)
    (hf : inp.fetch repo = ContribResult.listRes es) :
    (linesChangedRun inp).additions
        = authorAdds inp.username es + ((inp.repos.erase repo).map (perRepoAdd inp)).sum ∧
    (linesChangedRun inp).deletions
        = authorDels inp.username es + ((inp.repos.erase repo).map (perRepoDel inp)).sum ∧
    getKV (linesChangedRun inp).updated repo = some
      { additions := authorAdds inp.username es
        deletions := authorDels inp.username es
        last_updated := inp.now
        languages :=
          match getKV inp.repoLangData repo with
          | some props => props.map (fun p =>
              (p.1, pyInt ((authorAdds inp.username es : ℚ) * p.2),
                    pyInt ((authorDels inp.username es : ℚ) * p.2)))
          | none => [("Unknown", (authorAdds inp.username es : ℤ),
                                 (authorDels inp.username es : ℤ))] } := by
  have hadd : perRepoAdd inp repo = authorAdds inp.username es := by
    simp [perRepoAdd, hf]
  have hdel : perRepoDel inp repo = authorDels inp.username es := by
    simp [perRepoDel, hf]
  refine ⟨?_, ?_, ?_⟩
  · rw [linesChangedRun_additions, map_sum_split _ _ _ hmem, hadd]
  · rw [linesChangedRun_deletions, map_sum_split _ _ _ hmem, hdel]
  · rw [linesChangedRun_updated, if_pos hmem]
    simp [writeVal, hf, newEntry, langContribs]

def entryC2 : CacheEntry :=
  { additions := 10, deletions := 2, last_updated := "2024-01-01T00:00:00Z",
    languages := [("Python", 7, 1)] }

def esC2 : List AuthorEntry :=
  [AuthorEntry.entry "other" [(100, 100)], AuthorEntry.entry "u" [(5, 1), (3, 0)]]

def inpC2 : LCInput :=
  { username := "u"
    repos := ["repo/a"]
    fetch := fun _ => ContribResult.listRes esC2
    repoLangData := [("repo/a", [("Python", (1 : ℚ) / 2), ("C", (1 : ℚ) / 2)])]
    cache0 := [("repo/a", entryC2)]
    now := "2024-06-01T00:00:00Z" }

theorem C2_cache_overwrite_witness :
    ((linesChangedRun inpC2).additions
        = authorAdds inpC2.username esC2 + ((inpC2.repos.erase "repo/a").map (perRepoAdd inpC2)).sum ∧
     (linesChangedRun inpC2).deletions
        = authorDels inpC2.username esC2 + ((inpC2.repos.erase "repo/a").map (perRepoDel inpC2)).sum ∧
     getKV (linesChangedRun inpC2).updated "repo/a" = some
      { additions := authorAdds inpC2.username esC2
        deletions := authorDels inpC2.username esC2
        last_updated := inpC2.now
        languages :=
          match getKV inpC2.repoLangData "repo/a" with
          | some props => props.map (fun p =>
              (p.1, pyInt ((authorAdds inpC2.username esC2 : ℚ) * p.2),
                    pyInt ((authorDels inpC2.username esC2 : ℚ) * p.2)))
          | none => [("Unknown", (authorAdds inpC2.username esC2 : ℤ),
                                 (authorDels inpC2.username esC2 : ℤ))] }) ∧
    (linesChangedRun inpC2).additions = 8 ∧
    (linesChangedRun inpC2).deletions = 1 :=
  ⟨C2_cache_overwrite inpC2 "repo/a" esC2 (by decide) (by decide), by decide, by decide⟩

/-- C9: the written cache is a superset of the loaded cache: every key with a
loaded entry still has an entry after the run, and keys outside the current
repository list keep their loaded entry verbatim. -/
theorem C9_cache_superset (inp : LCInput) (x : String) (e : CacheEntry)
    (h : getKV inp.cache0 x = some e) :
    (∃ e2 : CacheEntry, getKV (linesChangedRun inp).updated x = some e2) ∧
    (x ∉ inp.repos → getKV (linesChangedRun inp).updated x = some e) := by
  constructor
  · by_cases hmem : x ∈ inp.repos
    · rw [linesChangedRun_updated, if_pos hmem]
      cases hf : inp.fetch x with
      | listRes es =>
        exact ⟨newEntry inp x (authorAdds inp.username es) (authorDels inp.username es),
          by simp [writeVal, hf]⟩
      | notList => exact ⟨e, by simp [writeVal, hf, h]⟩
    · rw [linesChangedRun_updated, if_neg hmem]
      exact ⟨e, h⟩
  · intro hnm
    rw [linesChangedRun_updated, if_neg hnm]
    exact h

def entryC9 : CacheEntry :=
  { additions := 4, deletions := 3, last_updated := "2023-05-05T00:00:00Z",
    languages := [] }

def inpC9 : LCInput :=
  { username := "u"
    repos := ["repo/a"]
    fetch := fun _ => ContribResult.listRes []
    repoLangData := []
    cache0 := [("old/gone", entryC9)]
    now := "2024-06-01T00:00:00Z" }

theorem C9_cache_superset_witness :
    (∃ e2 : CacheEntry, getKV (linesChangedRun inpC9).updated "old/gone" = some e2) ∧
    getKV (linesChangedRun inpC9).updated "old/gone" = some entryC9 :=
  ⟨(C9_cache_superset inpC9 "old/gone" entryC9 (by decide)).1,
   (C9_cache_superset inpC9 "old/gone" entryC9 (by decide)).2 (by decide)⟩

/-- C5: a paged endpoint answering 202 on every attempt makes `query_rest`
perform exactly 60 attempts with a 2-second sleep after each, then return the
empty result (`none` models the `return dict()` at line 74); the loop always
terminates with a value and raises nothing. -/
theorem C5_retry_termination {α : Type} (resp : Nat → RestAttempt α)
    (h : ∀ i, resp i = RestAttempt.http202) :
    query_rest resp = { result := none, attempts := 60, sleeps := 60 } := by
  have aux : ∀ (fuel i sleeps : Nat),
      queryRestAux resp fuel i sleeps
        = { result := none, attempts := i + fuel, sleeps := sleeps + fuel } := by
    intro fuel
    induction fuel with
    | zero => intro i s; simp [queryRestAux]
    | succ n ih =>
      intro i s
      simp only [queryRestAux, h i, ih]
      simp [RestOutcome.mk.injEq]
      omega
  have h60 := aux 60 0 0
  simpa [query_rest] using h60

theorem C5_retry_termination_witness :
    query_rest (fun _ => (RestAttempt.http202 : RestAttempt Nat))
      = { result := none, attempts := 60, sleeps := 60 } :=
  C5_retry_termination (fun _ => RestAttempt.http202) (fun _ => rfl)

/-- C10: loading the cache store never fails at the public interface for a
missing or unparsable file: both cases return the empty store, under which
every repository lookup misses and a failed live fetch leaves the
lines-changed state untouched. -/
theorem C10_load_fallback (parse : String → Option CacheStore) (s : String) :
    loadCache none parse = emptyStore ∧
    (parse s = none → loadCache (some s) parse = emptyStore) ∧
    (∀ x : String, getKV emptyStore.repositories x = none) ∧
    (∀ (inp : LCInput) (st : LCState) (r : String),
      inp.cache0 = emptyStore.repositories →
      inp.fetch r = ContribResult.notList → lcStep inp st r = st) := by
  refine ⟨rfl, ?_, fun x => rfl, ?_⟩
  · intro h
    simp [loadCache, h]
  · intro inp st r hc hf
    simp [lcStep, hf, hc, emptyStore, getKV]

theorem C10_load_fallback_witness :
    loadCache none (fun _ => (none : Option CacheStore)) = emptyStore ∧
    loadCache (some "not json") (fun _ => (none : Option CacheStore)) = emptyStore :=
  ⟨(C10_load_fallback (fun _ => none) "not json").1,
   (C10_load_fallback (fun _ => none) "not json").2.1 rfl⟩

/-! ### Lemmas about the Repository Collector -/

/-- Lines 240-241: a node whose identity is already in the repository set is
skipped entirely — the admission step is the identity. -/
theorem processRepo_seen (cfg : Config) (s : CState) (r : RepoNode)
    (h : r.nameWithOwner ∈ s.repos) : processRepo cfg s r = s := by
  unfold processRepo
  rw [if_pos (Or.inl h)]

/-- Lines 240-241: a configuration-excluded node is skipped entirely. -/
theorem processRepo_excluded (cfg : Config) (s : CState) (r : RepoNode)
    (h : r.nameWithOwner ∈ cfg.excludeRepos) : processRepo cfg s r = s := by
  unfold processRepo
  rw [if_pos (Or.inr h)]

/-- Line 234: an excluded contributed-to node is skipped entirely. -/
theorem processContrib_excluded (cfg : Config) (s : CState) (r : RepoNode)
    (h : r.nameWithOwner ∈ cfg.excludeRepos) : processContrib cfg s r = s := by
  unfold processContrib
  rw [if_pos (Or.inr h)]

theorem processRepo_ignored (cfg : Config) (s : CState) (r : RepoNode) :
    (processRepo cfg s r).ignored = s.ignored := by
  unfold processRepo
  split <;> rfl

theorem processRepo_name (cfg : Config) (s : CState) (r : RepoNode) :
    (processRepo cfg s r).name = s.name := by
  unfold processRepo
  split <;> rfl

theorem processRepo_repos_mono (cfg : Config) (s : CState) (r : RepoNode)
    (a : String) (h : a ∈ s.repos) : a ∈ (processRepo cfg s r).repos := by
  unfold processRepo
  split
  · exact h
  · exact List.mem_cons_of_mem _ h

theorem foldRepo_ignored (cfg : Config) :
    ∀ (nodes : List RepoNode) (s : CState),
      ((nodes.foldl (processRepo cfg) s)).ignored = s.ignored := by
  intro nodes
  induction nodes with
  | nil => intro s; rfl
  | cons r rs ih => intro s; rw [List.foldl_cons, ih, processRepo_ignored]

theorem foldRepo_repos_mono (cfg : Config) (a : String) :
    ∀ (nodes : List RepoNode) (s : CState), a ∈ s.repos →
      a ∈ ((nodes.foldl (processRepo cfg) s)).repos := by
  intro nodes
  induction nodes with
  | nil => intro s h; exact h
  | cons r rs ih =>
    intro s h
    exact ih _ (processRepo_repos_mono cfg s r a h)

/-- After the admission loop has seen a node, its identity is in the
repository set (unless configuration-excluded). -/
theorem foldRepo_mem (cfg : Config) (r : RepoNode)
    (hexcl : r.nameWithOwner ∉ cfg.excludeRepos) :
    ∀ (nodes : List RepoNode) (s : CState), r ∈ nodes →
      r.nameWithOwner ∈ ((nodes.foldl (processRepo cfg) s)).repos := by
  intro nodes
  induction nodes with
  | nil => intro s h; cases h
  | cons hd tl ih =>
    intro s hmem
    rcases List.mem_cons.mp hmem with he | htl
    · subst he
      rw [List.foldl_cons]
      refine foldRepo_repos_mono cfg _ tl _ ?_
      unfold processRepo
      by_cases hc : r.nameWithOwner ∈ s.repos ∨ r.nameWithOwner ∈ cfg.excludeRepos
      · rw [if_pos hc]
        rcases hc with h | h
        · exact h
        · exact absurd h hexcl
      · rw [if_neg hc]
        exact List.mem_cons_self _ _
    · rw [List.foldl_cons]
      exact ih _ htl

theorem processRepo_repos_nodup (cfg : Config) (s : CState) (r : RepoNode)
    (h : s.repos.Nodup) : (processRepo cfg s r).repos.Nodup := by
  unfold processRepo
  by_cases hc : r.nameWithOwner ∈ s.repos ∨ r.nameWithOwner ∈ cfg.excludeRepos
  · rw [if_pos hc]; exact h
  · rw [if_neg hc]
    refine List.Nodup.cons ?_ h
    intro hmem
    exact hc (Or.inl hmem)

theorem foldRepo_repos_nodup (cfg : Config) :
    ∀ (nodes : List RepoNode) (s : CState), s.repos.Nodup →
      ((nodes.foldl (processRepo cfg) s)).repos.Nodup := by
  intro nodes
  induction nodes with
  | nil => intro s h; exact h
  | cons r rs ih =>
    intro s h
    exact ih _ (processRepo_repos_nodup cfg s r h)

/-- Lines 232-236 change only the ignored set: every other field of the
state is untouched by a contributed-to sighting (fork inclusion disabled). -/
theorem processContrib_core (cfg : Config) (s : CState) (r : RepoNode) :
    (processContrib cfg s r).name = s.name ∧
    (processContrib cfg s r).repos = s.repos ∧
    (processContrib cfg s r).stargazers = s.stargazers ∧
    (processContrib cfg s r).forks = s.forks ∧
    (processContrib cfg s r).languages = s.languages ∧
    (processContrib cfg s r).repoLangData = s.repoLangData := by
  unfold processContrib
  split <;> exact ⟨rfl, rfl, rfl, rfl, rfl, rfl⟩

/-- C3: a repository identity seen more than once in the node stream fed to
the admission loop ends up exactly once in the repository set, the later
duplicate sighting leaves the whole state unchanged, and a contributed-to
sighting of the same identity (fork inclusion disabled) changes neither the
repository set nor the stargazer/fork/language totals. -/
theorem C3_idempotent_dedup (cfg : Config) (s : CState) (xs : List RepoNode)
    (r r2 : RepoNode) (hmem : r ∈ xs)
    (hname : r2.nameWithOwner = r.nameWithOwner)
    (hnd : s.repos.Nodup)
    (hexcl : r.nameWithOwner ∉ cfg.excludeRepos) :
    List.foldl (processRepo cfg) s (xs ++ [r2]) = List.foldl (processRepo cfg) s xs ∧
    (List.foldl (processRepo cfg) s xs).repos.count r.nameWithOwner = 1 ∧
    (processContrib cfg (List.foldl (processRepo cfg) s xs) r2).repos
        = (List.foldl (processRepo cfg) s xs).repos ∧
    (processContrib cfg (List.foldl (processRepo cfg) s xs) r2).stargazers
        = (List.foldl (processRepo cfg) s xs).stargazers ∧
    (processContrib cfg (List.foldl (processRepo cfg) s xs) r2).forks
        = (List.foldl (processRepo cfg) s xs).forks ∧
    (processContrib cfg (List.foldl (processRepo cfg) s xs) r2).languages
        = (List.foldl (processRepo cfg) s xs).languages := by
  have hin : r.nameWithOwner ∈ (List.foldl (processRepo cfg) s xs).repos :=
    foldRepo_mem cfg r hexcl xs s hmem
  have hin2 : r2.nameWithOwner ∈ (List.foldl (processRepo cfg) s xs).repos := by
    rw [hname]; exact hin
  refine ⟨?_, ?_, (processContrib_core cfg _ r2).2.1,
    (processContrib_core cfg _ r2).2.2.1, (processContrib_core cfg _ r2).2.2.2.1,
    (processContrib_core cfg _ r2).2.2.2.2.1⟩
  · rw [List.foldl_append, List.foldl_cons, List.foldl_nil,
      processRepo_seen cfg _ r2 hin2]
  · have hnd2 : (List.foldl (processRepo cfg) s xs).repos.Nodup :=
      foldRepo_repos_nodup cfg xs s hnd
    exact List.count_eq_one_of_mem hnd2 hin

def nodeC3a : RepoNode :=
  { nameWithOwner := "u/dup", stargazers := 3, forkCount := 1, languages := [] }

def nodeC3b : RepoNode :=
  { nameWithOwner := "u/dup", stargazers := 9, forkCount := 9, languages := [] }

theorem C3_idempotent_dedup_witness :
    List.foldl (processRepo { excludeRepos := [], excludeLangs := [], considerForked := true })
        initCState ([nodeC3a] ++ [nodeC3b])
      = List.foldl (processRepo { excludeRepos := [], excludeLangs := [], considerForked := true })
        initCState [nodeC3a] ∧
    (List.foldl (processRepo { excludeRepos := [], excludeLangs := [], considerForked := true })
        initCState [nodeC3a]).repos.count "u/dup" = 1 :=
  ⟨(C3_idempotent_dedup { excludeRepos := [], excludeLangs := [], considerForked := true }
      initCState [nodeC3a] nodeC3a nodeC3b (by decide) (by decide) (by decide) (by decide)).1,
   (C3_idempotent_dedup { excludeRepos := [], excludeLangs := [], considerForked := true }
      initCState [nodeC3a] nodeC3a nodeC3b (by decide) (by decide) (by decide) (by decide)).2.1⟩

/-! ### Exclusion (C6) -/

/-- Remove every node of a given identity from both lists of a page. -/
def dropName (x : String) (p : Page) : Page :=
  { p with
    ownedNodes := p.ownedNodes.filter (fun r => !(r.nameWithOwner == x))
    contribNodes := p.contribNodes.filter (fun r => !(r.nameWithOwner == x)) }

/-- Filtering out elements on which the step is the identity does not change
a fold. -/
theorem foldl_filter_skip {σ β : Type} (step : σ → β → σ) (p : β → Bool)
    (hid : ∀ (s : σ) (b : β), p b = false → step s b = s) :
    ∀ (l : List β) (s : σ), (l.filter p).foldl step s = l.foldl step s := by
  intro l
  induction l with
  | nil => intro s; rfl
  | cons b bs ih =>
    intro s
    by_cases hb : p b = true
    · rw [List.filter_cons_of_pos hb, List.foldl_cons, List.foldl_cons, ih]
    · have hb' : p b = false := by
        cases h : p b
        · rfl
        · exact absurd h hb
      rw [List.filter_cons_of_neg (by simp [hb']), List.foldl_cons, hid s b hb', ih]

theorem dropName_page_eq (cfg : Config) (x : String) (hx : x ∈ cfg.excludeRepos)
    (s : CState) (p : Page) :
    processPage cfg s (dropName x p) = processPage cfg s p := by
  have hidR : ∀ (t : CState) (r : RepoNode),
      (!(r.nameWithOwner == x)) = false → processRepo cfg t r = t := by
    intro t r h
    have hr : r.nameWithOwner = x := by simpa using h
    exact processRepo_excluded cfg t r (hr ▸ hx)
  have hidC : ∀ (t : CState) (r : RepoNode),
      (!(r.nameWithOwner == x)) = false → processContrib cfg t r = t := by
    intro t r h
    have hr : r.nameWithOwner = x := by simpa using h
    exact processContrib_excluded cfg t r (hr ▸ hx)
  unfold processPage dropName pageName
  by_cases hf : cfg.considerForked
  · simp only [hf, if_true]
    rw [← List.filter_append, foldl_filter_skip (processRepo cfg) _ hidR]
  · simp only [hf, if_false, Bool.false_eq_true]
    rw [foldl_filter_skip (processContrib cfg) _ hidC,
      foldl_filter_skip (processRepo cfg) _ hidR]

theorem processRepo_not_mem_repos (cfg : Config) (s : CState) (r : RepoNode)
    (x : String) (hx : x ∈ cfg.excludeRepos) (h : x ∉ s.repos) :
    x ∉ (processRepo cfg s r).repos := by
  unfold processRepo
  by_cases hc : r.nameWithOwner ∈ s.repos ∨ r.nameWithOwner ∈ cfg.excludeRepos
  · rw [if_pos hc]; exact h
  · rw [if_neg hc]
    intro hmem
    rcases List.mem_cons.mp hmem with he | hs
    · exact hc (Or.inr (he ▸ hx))
    · exact h hs

theorem processContrib_not_mem_ignored (cfg : Config) (s : CState) (r : RepoNode)
    (x : String) (hx : x ∈ cfg.excludeRepos) (h : x ∉ s.ignored) :
    x ∉ (processContrib cfg s r).ignored := by
  unfold processContrib
  by_cases hc : r.nameWithOwner ∈ s.ignored ∨ r.nameWithOwner ∈ cfg.excludeRepos
  · rw [if_pos hc]; exact h
  · rw [if_neg hc]
    intro hmem
    rcases List.mem_cons.mp hmem with he | hs
    · exact hc (Or.inr (he ▸ hx))
    · exact h hs

theorem processPage_not_mem (cfg : Config) (s : CState) (p : Page) (x : String)
    (hx : x ∈ cfg.excludeRepos) (hr : x ∉ s.repos) (hi : x ∉ s.ignored) :
    x ∉ (processPage cfg s p).repos ∧ x ∉ (processPage cfg s p).ignored := by
  have hfoldR : ∀ (nodes : List RepoNode) (t : CState), x ∉ t.repos →
      x ∉ ((nodes.foldl (processRepo cfg) t)).repos := by
    intro nodes
    induction nodes with
    | nil => intro t h; exact h
    | cons a as ih => intro t h; exact ih _ (processRepo_not_mem_repos cfg t a x hx h)
  have hfoldC : ∀ (nodes : List RepoNode) (t : CState), x ∉ t.ignored →
      x ∉ ((nodes.foldl (processContrib cfg) t)).ignored := by
    intro nodes
    induction nodes with
    | nil => intro t h; exact h
    | cons a as ih => intro t h; exact ih _ (processContrib_not_mem_ignored cfg t a x hx h)
  have hfoldC_repos : ∀ (nodes : List RepoNode) (t : CState),
      ((nodes.foldl (processContrib cfg) t)).repos = t.repos := by
    intro nodes
    induction nodes with
    | nil => intro t; rfl
    | cons a as ih => intro t; rw [List.foldl_cons, ih, (processContrib_core cfg t a).2.1]
  unfold processPage
  by_cases hf : cfg.considerForked
  · simp only [hf, if_true]
    constructor
    · exact hfoldR _ _ hr
    · rw [foldRepo_ignored]; exact hi
  · simp only [hf, if_false, Bool.false_eq_true]
    constructor
    · refine hfoldR _ _ ?_
      rw [hfoldC_repos]; exact hr
    · rw [foldRepo_ignored]
      exact hfoldC _ _ hi

/-- C6: a configuration-excluded repository identity is, after any run of the
collector, in neither the repository set nor the contributed-to-only set, and
deleting every sighting of it from the input pages yields the identical final
state — it contributes nothing to any total. -/
theorem C6_exclusion (cfg : Config) (pages : List Page) (x : String)
    (hx : x ∈ cfg.excludeRepos) :
    x ∉ (collectPages cfg pages).repos ∧
    x ∉ (collectPages cfg pages).ignored ∧
    collectPages cfg (pages.map (dropName x)) = collectPages cfg pages := by
  have hmain : ∀ (ps : List Page) (s : CState), x ∉ s.repos → x ∉ s.ignored →
      x ∉ ((ps.foldl (processPage cfg) s)).repos ∧
      x ∉ ((ps.foldl (processPage cfg) s)).ignored ∧
      (ps.map (dropName x)).foldl (processPage cfg) s = ps.foldl (processPage cfg) s := by
    intro ps
    induction ps with
    | nil => intro s hr hi; exact ⟨hr, hi, rfl⟩
    | cons p ps ih =>
      intro s hr hi
      have hstep := processPage_not_mem cfg s p x hx hr hi
      have := ih (processPage cfg s p) hstep.1 hstep.2
      refine ⟨this.1, this.2.1, ?_⟩
      rw [List.map_cons, List.foldl_cons, List.foldl_cons,
        dropName_page_eq cfg x hx s p, this.2.2]
  have h0 := hmain pages initCState (by simp [initCState]) (by simp [initCState])
  exact ⟨h0.1, h0.2.1, h0.2.2⟩

def cfgC6 : Config :=
  { excludeRepos := ["bad/repo"], excludeLangs := [], considerForked := false }

def pageC6 : Page :=
  { viewerName := some "N", viewerLogin := none,
    ownedNodes :=
      [{ nameWithOwner := "bad/repo", stargazers := 5, forkCount := 5, languages := [] },
       { nameWithOwner := "ok/repo", stargazers := 1, forkCount := 0, languages := [] }],
    contribNodes :=
      [{ nameWithOwner := "bad/repo", stargazers := 5, forkCount := 5, languages := [] }] }

theorem C6_exclusion_witness :
    "bad/repo" ∉ (collectPages cfgC6 [pageC6]).repos ∧
    "bad/repo" ∉ (collectPages cfgC6 [pageC6]).ignored ∧
    collectPages cfgC6 ([pageC6].map (dropName "bad/repo")) = collectPages cfgC6 [pageC6] :=
  C6_exclusion cfgC6 [pageC6] "bad/repo" (by decide)

/-! ### Owned-vs-excluded asymmetry (C7) -/

/-- Delete the contributed-to list of a page. -/
def dropContrib (p : Page) : Page := { p with contribNodes := [] }

/-- Equality of every collector field except the ignored set. -/
def coreEq (s t : CState) : Prop :=
  s.name = t.name ∧ s.repos = t.repos ∧ s.stargazers = t.stargazers ∧
  s.forks = t.forks ∧ s.languages = t.languages ∧ s.repoLangData = t.repoLangData

theorem coreEq_refl (s : CState) : coreEq s s :=
  ⟨rfl, rfl, rfl, rfl, rfl, rfl⟩

theorem processRepo_coreEq (cfg : Config) {s t : CState} (h : coreEq s t)
    (r : RepoNode) : coreEq (processRepo cfg s r) (processRepo cfg t r) := by
  obtain ⟨h1, h2, h3, h4, h5, h6⟩ := h
  unfold processRepo
  by_cases hc : r.nameWithOwner ∈ s.repos ∨ r.nameWithOwner ∈ cfg.excludeRepos
  · rw [if_pos hc, if_pos (by rw [← h2]; exact hc)]
    exact ⟨h1, h2, h3, h4, h5, h6⟩
  · rw [if_neg hc, if_neg (by rw [← h2]; exact hc)]
    exact ⟨h1, by rw [h2], by rw [h3], by rw [h4], by rw [h5], by rw [h6]⟩

theorem foldRepo_coreEq (cfg : Config) :
    ∀ (nodes : List RepoNode) {s t : CState}, coreEq s t →
      coreEq ((nodes.foldl (processRepo cfg) s)) ((nodes.foldl (processRepo cfg) t)) := by
  intro nodes
  induction nodes with
  | nil => intro s t h; exact h
  | cons r rs ih => intro s t h; exact ih (processRepo_coreEq cfg h r)

theorem foldContrib_core (cfg : Config) :
    ∀ (nodes : List RepoNode) (t : CState),
      coreEq ((nodes.foldl (processContrib cfg) t)) t := by
  intro nodes
  induction nodes with
  | nil => intro t; exact coreEq_refl t
  | cons r rs ih =>
    intro t
    have h1 := ih (processContrib cfg t r)
    have h2 := processContrib_core cfg t r
    rw [List.foldl_cons]
    exact ⟨h1.1.trans h2.1, h1.2.1.trans h2.2.1, h1.2.2.1.trans h2.2.2.1,
      h1.2.2.2.1.trans h2.2.2.2.1, h1.2.2.2.2.1.trans h2.2.2.2.2.1,
      h1.2.2.2.2.2.trans h2.2.2.2.2.2⟩

theorem coreEq_trans {s t u : CState} (h1 : coreEq s t) (h2 : coreEq t u) :
    coreEq s u :=
  ⟨h1.1.trans h2.1, h1.2.1.trans h2.2.1, h1.2.2.1.trans h2.2.2.1,
   h1.2.2.2.1.trans h2.2.2.2.1, h1.2.2.2.2.1.trans h2.2.2.2.2.1,
   h1.2.2.2.2.2.trans h2.2.2.2.2.2⟩

theorem processPage_dropContrib_coreEq (cfg : Config)
    (hf : cfg.considerForked = false) {s t : CState} (h : coreEq s t) (p : Page) :
    coreEq (processPage cfg s p) (processPage cfg t (dropContrib p)) := by
  unfold processPage dropContrib
  simp only [hf, Bool.false_eq_true, if_false, List.foldl_nil]
  have hname : coreEq { s with name := some (pageName p) }
      { t with name := some (pageName { p with contribNodes := ([] : List RepoNode) }) } := by
    obtain ⟨h1, h2, h3, h4, h5, h6⟩ := h
    exact ⟨rfl, h2, h3, h4, h5, h6⟩
  have hcontrib := foldContrib_core cfg p.contribNodes { s with name := some (pageName p) }
  exact foldRepo_coreEq cfg p.ownedNodes (coreEq_trans hcontrib hname)

theorem collect_dropContrib_coreEq (cfg : Config)
    (hf : cfg.considerForked = false) (pages : List Page) :
    coreEq (collectPages cfg pages) (collectPages cfg (pages.map dropContrib)) := by
  have hmain : ∀ (ps : List Page) {s t : CState}, coreEq s t →
      coreEq ((ps.foldl (processPage cfg) s)) (((ps.map dropContrib).foldl (processPage cfg) t)) := by
    intro ps
    induction ps with
    | nil => intro s t h; exact h
    | cons p ps ih =>
      intro s t h
      rw [List.map_cons, List.foldl_cons, List.foldl_cons]
      exact ih (processPage_dropContrib_coreEq cfg hf h p)
  exact hmain pages (coreEq_refl initCState)

theorem processContrib_ignored_mono (cfg : Config) (s : CState) (r : RepoNode)
    (a : String) (h : a ∈ s.ignored) : a ∈ (processContrib cfg s r).ignored := by
  unfold processContrib
  split
  · exact h
  · exact List.mem_cons_of_mem _ h

theorem foldContrib_ignored_mono (cfg : Config) (a : String) :
    ∀ (nodes : List RepoNode) (s : CState), a ∈ s.ignored →
      a ∈ ((nodes.foldl (processContrib cfg) s)).ignored := by
  intro nodes
  induction nodes with
  | nil => intro s h; exact h
  | cons r rs ih => intro s h; exact ih _ (processContrib_ignored_mono cfg s r a h)

theorem foldContrib_adds (cfg : Config) (r : RepoNode)
    (hexcl : r.nameWithOwner ∉ cfg.excludeRepos) :
    ∀ (nodes : List RepoNode) (s : CState), r ∈ nodes →
      r.nameWithOwner ∈ ((nodes.foldl (processContrib cfg) s)).ignored := by
  intro nodes
  induction nodes with
  | nil => intro s h; cases h
  | cons hd tl ih =>
    intro s hmem
    rcases List.mem_cons.mp hmem with he | htl
    · subst he
      rw [List.foldl_cons]
      refine foldContrib_ignored_mono cfg _ tl _ ?_
      unfold processContrib
      by_cases hc : r.nameWithOwner ∈ s.ignored ∨ r.nameWithOwner ∈ cfg.excludeRepos
      · rw [if_pos hc]
        rcases hc with h | h
        · exact h
        · exact absurd h hexcl
      · rw [if_neg hc]
        exact List.mem_cons_self _ _
    · rw [List.foldl_cons]
      exact ih _ htl

theorem processPage_ignored_mono (cfg : Config) (hf : cfg.considerForked = false)
    (s : CState) (p : Page) (a : String) (h : a ∈ s.ignored) :
    a ∈ (processPage cfg s p).ignored := by
  unfold processPage
  simp only [hf, Bool.false_eq_true, if_false]
  rw [foldRepo_ignored]
  exact foldContrib_ignored_mono cfg a p.contribNodes _ h

/-- A contributed-to sighting, with fork inclusion disabled, ends in the
ignored set unless configuration-excluded. -/
theorem collect_contrib_mem_ignored (cfg : Config)
    (hf : cfg.considerForked = false) (pages : List Page) (x : String)
    (hexcl : x ∉ cfg.excludeRepos)
    (hcontrib : ∃ p ∈ pages, ∃ r ∈ p.contribNodes, r.nameWithOwner = x) :
    x ∈ (collectPages cfg pages).ignored := by
  have hmain : ∀ (ps : List Page) (s : CState),
      (∃ p ∈ ps, ∃ r ∈ p.contribNodes, r.nameWithOwner = x) →
      x ∈ ((ps.foldl (processPage cfg) s)).ignored := by
    intro ps
    induction ps with
    | nil =>
      intro s h
      obtain ⟨p, hp, _⟩ := h
      cases hp
    | cons p ps ih =>
      intro s h
      obtain ⟨p0, hp0, r0, hr0, hname⟩ := h
      rcases List.mem_cons.mp hp0 with he | htl
      · subst he
        rw [List.foldl_cons]
        have hpage : x ∈ (processPage cfg s p0).ignored := by
          unfold processPage
          simp only [hf, Bool.false_eq_true, if_false]
          rw [foldRepo_ignored]
          have := foldContrib_adds cfg r0 (hname ▸ hexcl) p0.contribNodes
            { s with name := some (pageName p0) } hr0
          rwa [hname] at this
        have hmono : ∀ (qs : List Page) (t : CState), x ∈ t.ignored →
            x ∈ ((qs.foldl (processPage cfg) t)).ignored := by
          intro qs
          induction qs with
          | nil => intro t h; exact h
          | cons q qs ihq =>
            intro t h
            exact ihq _ (processPage_ignored_mono cfg hf t q x h)
        exact hmono ps _ hpage
      · rw [List.foldl_cons]
        exact ih _ ⟨p0, htl, r0, hr0, hname⟩
  exact hmain pages initCState hcontrib

theorem processRepo_repos_from (cfg : Config) (s : CState) (r : RepoNode)
    (x : String) (h : x ∈ (processRepo cfg s r).repos) :
    x ∈ s.repos ∨ r.nameWithOwner = x := by
  unfold processRepo at h
  by_cases hc : r.nameWithOwner ∈ s.repos ∨ r.nameWithOwner ∈ cfg.excludeRepos
  · rw [if_pos hc] at h
    exact Or.inl h
  · rw [if_neg hc] at h
    rcases List.mem_cons.mp h with he | hs
    · exact Or.inr he.symm
    · exact Or.inl hs

theorem foldRepo_repos_from (cfg : Config) (x : String) :
    ∀ (nodes : List RepoNode) (s : CState),
      x ∈ ((nodes.foldl (processRepo cfg) s)).repos →
      x ∈ s.repos ∨ ∃ r ∈ nodes, r.nameWithOwner = x := by
  intro nodes
  induction nodes with
  | nil => intro s h; exact Or.inl h
  | cons a as ih =>
    intro s h
    rw [List.foldl_cons] at h
    rcases ih _ h with hs | ⟨r, hr, hname⟩
    · rcases processRepo_repos_from cfg s a x hs with hs2 | he
      · exact Or.inl hs2
      · exact Or.inr ⟨a, List.mem_cons_self _ _, he⟩
    · exact Or.inr ⟨r, List.mem_cons_of_mem _ hr, hname⟩

/-- With fork inclusion disabled, the repository set only ever receives
identities of owned nodes. -/
theorem collect_repos_from_owned (cfg : Config)
    (hf : cfg.considerForked = false) (pages : List Page) (x : String)
    (howned : ∀ p ∈ pages, ∀ r ∈ p.ownedNodes, r.nameWithOwner ≠ x) :
    x ∉ (collectPages cfg pages).repos := by
  have hmain : ∀ (ps : List Page) (s : CState),
      (∀ p ∈ ps, ∀ r ∈ p.ownedNodes, r.nameWithOwner ≠ x) → x ∉ s.repos →
      x ∉ ((ps.foldl (processPage cfg) s)).repos := by
    intro ps
    induction ps with
    | nil => intro s _ h; exact h
    | cons p ps ih =>
      intro s hall hs
      rw [List.foldl_cons]
      refine ih _ (fun q hq => hall q (List.mem_cons_of_mem _ hq)) ?_
      intro hmem
      unfold processPage at hmem
      simp only [hf, Bool.false_eq_true, if_false] at hmem
      rcases foldRepo_repos_from cfg x p.ownedNodes _ hmem with hs2 | ⟨r, hr, hname⟩
      · have hcrepos := (foldContrib_core cfg p.contribNodes
          { s with name := some (pageName p) }).2.1
        rw [hcrepos] at hs2
        exact hs hs2
      · exact hall p (List.mem_cons_self _ _) r hr hname
  exact hmain pages initCState howned (by simp [initCState])

theorem viewsTotal_congr (repos : List String) (f g : String → List Nat)
    (h : ∀ r ∈ repos, f r = g r) : viewsTotal repos f = viewsTotal repos g := by
  unfold viewsTotal
  have hmain : ∀ (rs : List String), (∀ r ∈ rs, f r = g r) → ∀ (acc : Nat),
      rs.foldl (fun acc r => acc + (f r).sum) acc
        = rs.foldl (fun acc r => acc + (g r).sum) acc := by
    intro rs
    induction rs with
    | nil => intro _ acc; rfl
    | cons r rs ih =>
      intro hall acc
      rw [List.foldl_cons, List.foldl_cons, hall r (List.mem_cons_self _ _)]
      exact ih (fun q hq => hall q (List.mem_cons_of_mem _ hq)) _
  exact hmain repos h 0

/-- C7: with fork inclusion disabled, a repository reachable only through the
contributed-to list is in `all_repos` (so the lines-changed engine iterates
it and its per-repository contribution appears in the grand total), but it is
not in the owned repository set, the owned-only aggregates (stargazers,
forks, languages, proportional records) are the same as if the contributed-to
lists were empty, and the views total is insensitive to its traffic data. -/
theorem C7_owned_excluded_asymmetry (cfg : Config) (pages : List Page)
    (x username now : String) (fetch : String → ContribResult)
    (cache0 : List (String × CacheEntry)) (f : String → List Nat) (v : List Nat)
    (hfork : cfg.considerForked = false)
    (hcontrib : ∃ p ∈ pages, ∃ r ∈ p.contribNodes, r.nameWithOwner = x)
    (howned : ∀ p ∈ pages, ∀ r ∈ p.ownedNodes, r.nameWithOwner ≠ x)
    (hexcl : x ∉ cfg.excludeRepos) :
    x ∈ allReposList (collectPages cfg pages) ∧
    x ∉ (collectPages cfg pages).repos ∧
    (collectPages cfg pages).stargazers
        = (collectPages cfg (pages.map dropContrib)).stargazers ∧
    (collectPages cfg pages).forks
        = (collectPages cfg (pages.map dropContrib)).forks ∧
    (collectPages cfg pages).languages
        = (collectPages cfg (pages.map dropContrib)).languages ∧
    (linesChangedRun
        { username := username, repos := allReposList (collectPages cfg pages),
          fetch := fetch, repoLangData := (collectPages cfg pages).repoLangData,
          cache0 := cache0, now := now }).additions
      = perRepoAdd
          { username := username, repos := allReposList (collectPages cfg pages),
            fetch := fetch, repoLangData := (collectPages cfg pages).repoLangData,
            cache0 := cache0, now := now } x
        + (((allReposList (collectPages cfg pages)).erase x).map
            (perRepoAdd
              { username := username, repos := allReposList (collectPages cfg pages),
                fetch := fetch, repoLangData := (collectPages cfg pages).repoLangData,
                cache0 := cache0, now := now })).sum ∧
    viewsTotal (collectPages cfg pages).repos (Function.update f x v)
        = viewsTotal (collectPages cfg pages).repos f := by
  have hign : x ∈ (collectPages cfg pages).ignored :=
    collect_contrib_mem_ignored cfg hfork pages x hexcl hcontrib
  have hall : x ∈ allReposList (collectPages cfg pages) := by
    unfold allReposList
    exact List.mem_dedup.mpr (List.mem_append.mpr (Or.inr hign))
  have hnotrepos : x ∉ (collectPages cfg pages).repos :=
    collect_repos_from_owned cfg hfork pages x howned
  have hcore := collect_dropContrib_coreEq cfg hfork pages
  refine ⟨hall, hnotrepos, hcore.2.2.1, hcore.2.2.2.1, hcore.2.2.2.2.1, ?_, ?_⟩
  · rw [linesChangedRun_additions]
    exact map_sum_split _ _ _ hall
  · refine viewsTotal_congr _ _ _ (fun r hr => ?_)
    have hne : r ≠ x := fun he => hnotrepos (he ▸ hr)
    exact Function.update_noteq hne v f

def cfgC7 : Config := { excludeRepos := [], excludeLangs := [], considerForked := false }

def pageC7 : Page :=
  { viewerName := some "N", viewerLogin := none,
    ownedNodes := [{ nameWithOwner := "me/own", stargazers := 2, forkCount := 1, languages := [] }],
    contribNodes := [{ nameWithOwner := "them/contrib", stargazers := 50, forkCount := 50, languages := [] }] }

theorem C7_owned_excluded_asymmetry_witness :
    "them/contrib" ∈ allReposList (collectPages cfgC7 [pageC7]) ∧
    "them/contrib" ∉ (collectPages cfgC7 [pageC7]).repos ∧
    (collectPages cfgC7 [pageC7]).stargazers
        = (collectPages cfgC7 ([pageC7].map dropContrib)).stargazers ∧
    viewsTotal (collectPages cfgC7 [pageC7]).repos
        (Function.update (fun _ => ([] : List Nat)) "them/contrib" [7])
      = viewsTotal (collectPages cfgC7 [pageC7]).repos (fun _ => ([] : List Nat)) := by
  have h := C7_owned_excluded_asymmetry cfgC7 [pageC7] "them/contrib" "me" "NOW"
    (fun _ => ContribResult.notList) [] (fun _ => ([] : List Nat)) [7]
    (by decide) (by decide) (by decide) (by decide)
  exact ⟨h.1, h.2.1, h.2.2.1, h.2.2.2.2.2.2⟩

/-! ### Percentage step on a zero grand total (C4) -/

def cfgC4 : Config := { excludeRepos := [], excludeLangs := [], considerForked := false }

/-- One owned repository whose only language edge has size 0: a language is
admitted into the aggregate, yet the grand total byte size is 0. -/
def pageC4 : Page :=
  { viewerName := some "N", viewerLogin := none,
    ownedNodes :=
      [{ nameWithOwner := "u/z", stargazers := 0, forkCount := 0,
         languages := [{ name := "Python", size := 0, color := none }] }],
    contribNodes := [] }

/-- C4 (failing input): with one admitted language of cumulative size 0 the
grand total is 0, and the post-loop percentage step at line 282 divides by
zero — `get_stats` raises (`none`) instead of reporting 0% per language. -/
theorem C4_zero_total_raises :
    (collectPages cfgC4 [pageC4]).languages ≠ [] ∧
    langsTotal (collectPages cfgC4 [pageC4]) = 0 ∧
    getStatsRun cfgC4 [pageC4] = none := by
  refine ⟨by decide, by decide, by decide⟩

/-! ### Memoization of the snapshot (C8) -/

def cfgC8 : Config := { excludeRepos := [], excludeLangs := [], considerForked := false }

def pageC8 : Page :=
  { viewerName := some "N", viewerLogin := some "n",
    ownedNodes :=
      [{ nameWithOwner := "u/r", stargazers := 1, forkCount := 2, languages := [] }],
    contribNodes := [] }

def lcC8 : LCEnv :=
  { username := "u", fetch := fun _ => ContribResult.notList, cache0 := [],
    now := "2024-06-01T00:00:00Z" }

/-- C8 (counterexample): the claim says that once any accessor has completed,
no subsequent accessor call triggers the full fetch again.  Here the `name`
accessor completes after one fetch, yet the following first call of the
`lines_changed` accessor runs `get_stats` a second time (line 366 calls it
unconditionally): the fetch counter reaches 2. -/
theorem C8_refetch_counterexample :
    (nameAcc cfgC8 [pageC8] initM).map MState.fetchCount = some 1 ∧
    ((nameAcc cfgC8 [pageC8] initM).bind (linesChangedAcc cfgC8 [pageC8] lcC8)).map
        MState.fetchCount = some 2 := by
  refine ⟨by decide, by decide⟩

theorem foldRepo_name (cfg : Config) :
    ∀ (nodes : List RepoNode) (s : CState),
      ((nodes.foldl (processRepo cfg) s)).name = s.name := by
  intro nodes
  induction nodes with
  | nil => intro s; rfl
  | cons r rs ih => intro s; rw [List.foldl_cons, ih, processRepo_name]

theorem processPage_name_eq (cfg : Config) (s : CState) (p : Page) :
    (processPage cfg s p).name = some (pageName p) := by
  unfold processPage
  by_cases hf : cfg.considerForked
  · simp only [hf, if_true]
    rw [foldRepo_name]
  · simp only [hf, Bool.false_eq_true, if_false]
    rw [foldRepo_name]
    exact (foldContrib_core cfg p.contribNodes _).1

theorem collectPages_name_isSome (cfg : Config) (pages : List Page)
    (hne : pages ≠ []) : (collectPages cfg pages).name.isSome := by
  have hmain : ∀ (ps : List Page) (s : CState), s.name.isSome ∨ ps ≠ [] →
      ((ps.foldl (processPage cfg) s)).name.isSome := by
    intro ps
    induction ps with
    | nil =>
      intro s h
      rcases h with h | h
      · exact h
      · exact absurd rfl h
    | cons p ps ih =>
      intro s _
      rw [List.foldl_cons]
      refine ih _ (Or.inl ?_)
      rw [processPage_name_eq]
      rfl
  exact hmain pages initCState (Or.inr hne)

theorem getStatsRun_fields (cfg : Config) (pages : List Page) (c : CState)
    (h : getStatsRun cfg pages = some c) :
    c.name = (collectPages cfg pages).name ∧
    c.repos = (collectPages cfg pages).repos ∧
    c.ignored = (collectPages cfg pages).ignored := by
  simp only [getStatsRun] at h
  split at h
  · exact ⟨by rw [← Option.some_inj.mp h], by rw [← Option.some_inj.mp h],
      by rw [← Option.some_inj.mp h]⟩
  · split at h
    · cases h
    · exact ⟨by rw [← Option.some_inj.mp h], by rw [← Option.some_inj.mp h],
        by rw [← Option.some_inj.mp h]⟩

/-- C8 (amended): each accessor memoizes its own field — when the field is
already set, the accessor is a pure read and performs no fetch; after one
`get_stats` all snapshot accessors are pure reads; but the `lines_changed`
accessor's first call always re-runs the full fetch (one more recorded fetch)
even when the snapshot already exists, and only its later calls are pure
reads of the memoized pair. -/
theorem C8_per_accessor_memoization (cfg : Config) (pages : List Page)
    (lc : LCEnv) (m : MState) :
    (m.nameF.isSome → nameAcc cfg pages m = some m) ∧
    (m.stargazersF.isSome → stargazersAcc cfg pages m = some m) ∧
    (m.forksF.isSome → forksAcc cfg pages m = some m) ∧
    (m.languagesF.isSome → languagesAcc cfg pages m = some m) ∧
    (m.reposF.isSome → reposAcc cfg pages m = some m) ∧
    (m.reposF.isSome → m.ignoredF.isSome → allReposAcc cfg pages m = some m) ∧
    (pages ≠ [] → ∀ m1 : MState, getStatsM cfg pages m = some m1 →
      nameAcc cfg pages m1 = some m1 ∧ stargazersAcc cfg pages m1 = some m1 ∧
      forksAcc cfg pages m1 = some m1 ∧ languagesAcc cfg pages m1 = some m1 ∧
      reposAcc cfg pages m1 = some m1 ∧ allReposAcc cfg pages m1 = some m1) ∧
    (m.linesChangedF = none → ∀ m2 : MState,
      linesChangedAcc cfg pages lc m = some m2 → m2.fetchCount = m.fetchCount + 1) ∧
    (∀ m2 : MState, linesChangedAcc cfg pages lc m = some m2 →
      linesChangedAcc cfg pages lc m2 = some m2) := by
  refine ⟨?_, ?_, ?_, ?_, ?_, ?_, ?_, ?_, ?_⟩
  · intro h; unfold nameAcc; rw [if_pos h]
  · intro h; unfold stargazersAcc; rw [if_pos h]
  · intro h; unfold forksAcc; rw [if_pos h]
  · intro h; unfold languagesAcc; rw [if_pos h]
  · intro h; unfold reposAcc; rw [if_pos h]
  · intro h1 h2; unfold allReposAcc; rw [if_pos ⟨h1, h2⟩]
  · intro hne m1 h
    unfold getStatsM at h
    cases hg : getStatsRun cfg pages with
    | none => rw [hg] at h; cases h
    | some c =>
      rw [hg] at h
      have hm1 : m1 = snapshotOf c m := (Option.some_inj.mp h).symm
      have hnm : c.name.isSome := by
        rw [(getStatsRun_fields cfg pages c hg).1]
        exact collectPages_name_isSome cfg pages hne
      subst hm1
      refine ⟨?_, ?_, ?_, ?_, ?_, ?_⟩
      · unfold nameAcc; rw [if_pos (by simpa [snapshotOf] using hnm)]
      · unfold stargazersAcc; rw [if_pos (by simp [snapshotOf])]
      · unfold forksAcc; rw [if_pos (by simp [snapshotOf])]
      · unfold languagesAcc; rw [if_pos (by simp [snapshotOf])]
      · unfold reposAcc; rw [if_pos (by simp [snapshotOf])]
      · unfold allReposAcc; rw [if_pos (by simp [snapshotOf])]
  · intro hnone m2 h
    unfold linesChangedAcc at h
    rw [if_neg (by simp [hnone])] at h
    cases hg : getStatsRun cfg pages with
    | none => rw [hg] at h; cases h
    | some c =>
      rw [hg] at h
      have hm2 := (Option.some_inj.mp h).symm
      subst hm2
      rfl
  · intro m2 h
    by_cases hm : m.linesChangedF.isSome
    · unfold linesChangedAcc at h ⊢
      rw [if_pos hm] at h
      have hm2 := (Option.some_inj.mp h).symm
      subst hm2
      rw [if_pos hm]
    · unfold linesChangedAcc at h ⊢
      rw [if_neg hm] at h
      cases hg : getStatsRun cfg pages with
      | none => rw [hg] at h; cases h
      | some c =>
        rw [hg] at h
        have hm2 := (Option.some_inj.mp h).symm
        subst hm2
        rw [if_pos (by simp)]

def mSetC8 : MState :=
  { nameF := some "N", stargazersF := some 1, forksF := some 2,
    languagesF := some [], reposF := some ["u/r"], ignoredF := some [],
    linesChangedF := some (0, 0), fetchCount := 1 }

def m1C8 : MState := (getStatsM cfgC8 [pageC8] initM).getD initM

def mOutC8 : MState := (linesChangedAcc cfgC8 [pageC8] lcC8 initM).getD initM

theorem C8_per_accessor_memoization_witness :
    nameAcc cfgC8 [pageC8] mSetC8 = some mSetC8 ∧
    stargazersAcc cfgC8 [pageC8] mSetC8 = some mSetC8 ∧
    forksAcc cfgC8 [pageC8] mSetC8 = some mSetC8 ∧
    languagesAcc cfgC8 [pageC8] mSetC8 = some mSetC8 ∧
    reposAcc cfgC8 [pageC8] mSetC8 = some mSetC8 ∧
    allReposAcc cfgC8 [pageC8] mSetC8 = some mSetC8 ∧
    nameAcc cfgC8 [pageC8] m1C8 = some m1C8 ∧
    mOutC8.fetchCount = initM.fetchCount + 1 ∧
    linesChangedAcc cfgC8 [pageC8] lcC8 mOutC8 = some mOutC8 := by
  have hset := C8_per_accessor_memoization cfgC8 [pageC8] lcC8 mSetC8
  have hinit := C8_per_accessor_memoization cfgC8 [pageC8] lcC8 initM
  refine ⟨hset.1 (by decide), hset.2.1 (by decide), hset.2.2.1 (by decide),
    hset.2.2.2.1 (by decide), hset.2.2.2.2.1 (by decide),
    hset.2.2.2.2.2.1 (by decide) (by decide),
    (hinit.2.2.2.2.2.2.1 (by decide) m1C8 (by decide)).1,
    hinit.2.2.2.2.2.2.2.1 (by decide) mOutC8 (by decide),
    hinit.2.2.2.2.2.2.2.2 mOutC8 (by decide)⟩

end GHStats








